import Mathlib

/-!
Verification of the staged data-transformation pipeline of the
amilabs/incubator-echarts repository.

The shallow embedding below translates the source files under `src/`
(`src/chart/bar/BarSeries.js`, `src/chart/candlestick.js`) into Lean
definitions.  Components of the pipeline core whose implementation files are
not part of the provided sources (the stage registry, the scheduler, the
progressive-execution controller, the downsampling processor and the
registration API) are modelled from the specification text; each such
definition carries a doc comment starting with `Modelled from the spec:`.
-/

/-- Option values appearing in a `defaultOption` fragment: strings, numbers,
booleans, `null`, and nested objects (association lists of named values).
Mirrors the plain-object shape of `defaultOption` in `BarSeries.js`. -/
inductive OptVal where
  | str : String → OptVal
  | num : Int → OptVal
  | bool : Bool → OptVal
  | null : OptVal
  | obj : List (String × OptVal) → OptVal

/-- The `backgroundStyle` sub-object of the bar series `defaultOption`
(`src/chart/bar/BarSeries.js`, lines 63-77), field by field. -/
def backgroundStyleFields : List (String × OptVal) :=
  [ ("color", OptVal.str "rgba(180, 180, 180, 0.2)")
  , ("borderColor", OptVal.null)
  , ("borderWidth", OptVal.num 0)
  , ("borderType", OptVal.str "solid")
  , ("borderRadius", OptVal.num 0)
  , ("shadowBlur", OptVal.num 0)
  , ("shadowColor", OptVal.null)
  , ("shadowOffsetX", OptVal.num 0)
  , ("shadowOffsetY", OptVal.num 0)
  , ("opacity", OptVal.num 1)
  , ("sampling", OptVal.str "none")
  , ("samplingRate", OptVal.num 1) ]

/-- The bar series `defaultOption` constant
(`src/chart/bar/BarSeries.js`, lines 53-78), field by field. -/
def barDefaultOption : List (String × OptVal) :=
  [ ("clip", OptVal.bool true)
  , ("roundCap", OptVal.bool false)
  , ("showBackground", OptVal.bool false)
  , ("backgroundStyle", OptVal.obj backgroundStyleFields) ]

/-- The option fields of a bar series model that the progressive-rendering
methods consult via `this.get(...)`: the `large` flag, the `progressive`
option (a chunk size, or `false` encoded as `none`), and the two item-count
thresholds. -/
structure BarSeriesModel where
  large : Bool
  progressive : Option Nat
  progressiveThreshold : Nat
  largeThreshold : Nat

/-- `getProgressive` of the bar series
(`src/chart/bar/BarSeries.js`, lines 33-38):
`return this.get('large') ? this.get('progressive') : false;`
(`false` is encoded as `none`). -/
def getProgressive (m : BarSeriesModel) : Option Nat :=
  if m.large then m.progressive else none

/-- `getProgressiveThreshold` of the bar series
(`src/chart/bar/BarSeries.js`, lines 43-51): starts from
`progressiveThreshold` and replaces it by `largeThreshold` when the latter is
greater.  The `large` flag is not consulted. -/
def getProgressiveThreshold (m : BarSeriesModel) : Nat :=
  let progressiveThreshold := m.progressiveThreshold
  let largeThreshold := m.largeThreshold
  if largeThreshold > progressiveThreshold then largeThreshold
  else progressiveThreshold

/-- Modelled from the spec: `shouldUseProgressive(seriesModel, datasetSize)`
(§4.3) returns true iff the model's `large` flag is set and the dataset size
strictly exceeds the effective progressive threshold; for a bar series the
effective threshold is its `getProgressiveThreshold` override.  The
controller's implementation file is not among the provided sources. -/
def shouldUseProgressive (m : BarSeriesModel) (datasetSize : Nat) : Bool :=
  m.large && decide (datasetSize > getProgressiveThreshold m)

/-- The four stage kinds of the pipeline (§4.2): preprocess, process,
visual, layout. -/
inductive StageKind where
  | preprocess
  | process
  | visual
  | layout
deriving DecidableEq

/-- A stage registration entry (§3): kind, numeric priority, handler.
Registration order is the position in the registry's entry list. -/
structure StageEntry (H : Type) where
  kind : StageKind
  priority : Nat
  handler : H
deriving DecidableEq

/-- Modelled from the spec: the Stage Registry (§4.1), a process-wide
append-only table of stage registration entries; its implementation file is
not among the provided sources. -/
structure StageRegistry (H : Type) where
  entries : List (StageEntry H)

/-- Modelled from the spec: `register(kind, priority, handler)` (§4.1)
appends an entry; re-registration at an existing (kind, priority) pair is
appended after the existing same-priority entries. -/
def StageRegistry.register (reg : StageRegistry H) (kind : StageKind)
    (priority : Nat) (handler : H) : StageRegistry H :=
  ⟨reg.entries ++ [⟨kind, priority, handler⟩]⟩

/-- The comparison `getStages` sorts by: ascending priority. -/
def stagePriorityLE {H : Type} (a b : StageEntry H) : Prop :=
  a.priority ≤ b.priority

instance {H : Type} : DecidableRel (@stagePriorityLE H) :=
  fun a b => inferInstanceAs (Decidable (a.priority ≤ b.priority))

instance {H : Type} : IsTotal (StageEntry H) stagePriorityLE :=
  ⟨fun a b => Nat.le_total a.priority b.priority⟩

instance {H : Type} : IsTrans (StageEntry H) stagePriorityLE :=
  ⟨fun _ _ _ hab hbc => Nat.le_trans hab hbc⟩

/-- Modelled from the spec: `getStages(kind)` (§4.1) — the registry's
entries of the given kind, sorted ascending by priority with a stable sort,
so that equal-priority entries keep registration order. -/
def StageRegistry.getStagesEntries (reg : StageRegistry H)
    (kind : StageKind) : List (StageEntry H) :=
  List.insertionSort stagePriorityLE
    (reg.entries.filter (fun e => decide (e.kind = kind)))

/-- Modelled from the spec: `getStages(kind)` (§4.1) as the ordered sequence
of handlers. -/
def StageRegistry.getStages (reg : StageRegistry H)
    (kind : StageKind) : List H :=
  (reg.getStagesEntries kind).map StageEntry.handler

/-- Modelled from the spec: `registerPreprocessor(fn)` (§6) appends to the
Stage Registry in the preprocess kind; the API takes no priority, so the
entry is appended at a fixed default priority 0 within its kind. -/
def registerPreprocessor (f : H) (reg : StageRegistry H) : StageRegistry H :=
  reg.register StageKind.preprocess 0 f

/-- Modelled from the spec: `registerProcessor(priority, fn)` (§6) appends
to the Stage Registry in the process kind at the given priority. -/
def registerProcessor (priority : Nat) (f : H) (reg : StageRegistry H) :
    StageRegistry H :=
  reg.register StageKind.process priority f

/-- Modelled from the spec: `registerVisual(fn)` (§6) appends to the Stage
Registry in the visual kind, at a fixed default priority 0 within its
kind. -/
def registerVisual (f : H) (reg : StageRegistry H) : StageRegistry H :=
  reg.register StageKind.visual 0 f

/-- Modelled from the spec: `registerLayout(fn)` (§6) appends to the Stage
Registry in the layout kind, at a fixed default priority 0 within its
kind. -/
def registerLayout (f : H) (reg : StageRegistry H) : StageRegistry H :=
  reg.register StageKind.layout 0 f

/-- Modelled from the spec: the fixed STATISTIC priority constant of the
process kind (`echarts.PRIORITY.PROCESSOR.STATISTIC`); the spec fixes only
that it is a single fixed numeric priority, its value is not in the
provided sources. -/
def PRIORITY_PROCESSOR_STATISTIC : Nat := 5000

/-- The four stage functions registered by `src/chart/candlestick.js`, as
abstract handler tokens: the imported `preprocessor`, `candlestickVisual`,
`candlestickLayout`, and the processor `dataSample('candlestick')`. -/
inductive CandlestickStage where
  | preprocessorFn
  | candlestickVisual
  | candlestickLayout
  | dataSampleCandlestick
deriving DecidableEq

/-- The module-load side effect of `src/chart/candlestick.js` (lines 31-39),
in source order:
`registerPreprocessor(preprocessor)`, `registerVisual(candlestickVisual)`,
`registerLayout(candlestickLayout)`,
`registerProcessor(PRIORITY.PROCESSOR.STATISTIC, dataSample('candlestick'))`. -/
def candlestickModuleLoad (reg : StageRegistry CandlestickStage) :
    StageRegistry CandlestickStage :=
  registerProcessor PRIORITY_PROCESSOR_STATISTIC
    CandlestickStage.dataSampleCandlestick
    (registerLayout CandlestickStage.candlestickLayout
      (registerVisual CandlestickStage.candlestickVisual
        (registerPreprocessor CandlestickStage.preprocessorFn reg)))

/-- Modelled from the spec: the result of `nextChunk` (§4.3) — either the
"done" sentinel or the next `[start, stop)` index range. -/
inductive ChunkResult where
  | done
  | chunk (start stop : Nat)
deriving DecidableEq

/-- Modelled from the spec: `nextChunk(cursor, datasetSize, chunkSize)`
(§4.3) returns the done sentinel when `cursor >= datasetSize`, otherwise the
index range `[cursor, min (cursor + chunkSize) datasetSize)`.  The
controller's implementation file is not among the provided sources. -/
def nextChunk (cursor datasetSize chunkSize : Nat) : ChunkResult :=
  if datasetSize ≤ cursor then ChunkResult.done
  else ChunkResult.chunk cursor (min (cursor + chunkSize) datasetSize)

/-- Modelled from the spec: the list of ranges produced by iterating
`nextChunk` from a given cursor, advancing the cursor by the chunk size,
until the done sentinel.  A zero chunk size (which would never advance the
cursor) produces no chunks. -/
def chunksFrom (datasetSize chunkSize cursor : Nat) : List (Nat × Nat) :=
  if _h : chunkSize = 0 ∨ datasetSize ≤ cursor then []
  else
    (cursor, min (cursor + chunkSize) datasetSize) ::
      chunksFrom datasetSize chunkSize (cursor + chunkSize)
termination_by datasetSize - cursor
decreasing_by omega

/-- Modelled from the spec: the chunk ranges of one whole render pass — the
cursor is reset to zero at the start of every pass (§4.3). -/
def chunks (datasetSize chunkSize : Nat) : List (Nat × Nat) :=
  chunksFrom datasetSize chunkSize 0

/-- Modelled from the spec: the `StageExecutionError` record (§7) — a stage
threw during a render pass; carries the series index, the stage kind, and
the original cause. -/
structure StageExecutionError where
  seriesIndex : Nat
  stageKind : StageKind
  cause : String
deriving DecidableEq

/-- Modelled from the spec: one series' stage sequence for a render pass,
paired with its input data: the stages of the four kinds in execution order,
each either transforming the data or throwing (an error message). -/
structure SeriesPass (D : Type) where
  stages : List (StageKind × (D → Except String D))
  data : D

/-- Modelled from the spec: running one series' pipeline for the current
pass (§4.2) — stages run in order; a throw aborts the remainder of that
series' pipeline, exposing the throwing stage's kind and cause. -/
def runSeriesPass (stages : List (StageKind × (D → Except String D)))
    (d : D) : Except (StageKind × String) D :=
  match stages with
  | [] => Except.ok d
  | (k, f) :: rest =>
    match f d with
    | Except.ok d2 => runSeriesPass rest d2
    | Except.error e => Except.error (k, e)

/-- Modelled from the spec: the scheduler's per-pass outputs (§4.2) — one
entry per series, `none` for a series whose pipeline threw. -/
def schedulerOutputs (series : List (SeriesPass D)) : List (Option D) :=
  series.map (fun s => (runSeriesPass s.stages s.data).toOption)

/-- Modelled from the spec: the errors reported for a pass (§4.2, §7) —
walking the series in order from a starting index, a failing series
contributes one `StageExecutionError` with its index and the throwing
stage's kind, and the walk proceeds to the next series. -/
def schedulerErrorsFrom (n : Nat) :
    List (SeriesPass D) → List StageExecutionError
  | [] => []
  | s :: rest =>
    match runSeriesPass s.stages s.data with
    | Except.ok _ => schedulerErrorsFrom (n + 1) rest
    | Except.error ke => ⟨n, ke.1, ke.2⟩ :: schedulerErrorsFrom (n + 1) rest

/-- Modelled from the spec: the errors reported for a whole pass, series
indexed from 0. -/
def schedulerErrors (series : List (SeriesPass D)) :
    List StageExecutionError :=
  schedulerErrorsFrom 0 series

/-- A stage sequence that succeeds on its data, used as the healthy series
of the concrete failure scenario: process adds 1, layout doubles. -/
def seriesOk : SeriesPass Nat :=
  ⟨[(StageKind.process, fun d => Except.ok (d + 1)),
    (StageKind.layout, fun d => Except.ok (d * 2))], 10⟩

/-- A series whose layout stage throws, used as the failing series of the
concrete failure scenario. -/
def seriesBad : SeriesPass Nat :=
  ⟨[(StageKind.process, fun d => Except.ok (d + 1)),
    (StageKind.layout, fun _ => Except.error "boom")], 12⟩

/-- The concrete render pass of the claim: five series, of which exactly the
one at index 2 throws. -/
def fivePassSeries : List (SeriesPass Nat) :=
  [seriesOk, seriesOk, seriesBad, seriesOk, seriesOk]

/-- Modelled from the spec: the named aggregation methods of the
downsampling processor (§4.5): `average | max | min | sum | none`. -/
inductive SamplingMethod where
  | average
  | max
  | min
  | sum
  | none
deriving DecidableEq

/-- Maximum of a list of values, seeded with the head (runs are
nonempty). -/
def listMax : List Int → Int
  | [] => 0
  | x :: xs => xs.foldl Max.max x

/-- Minimum of a list of values, seeded with the head. -/
def listMin : List Int → Int
  | [] => 0
  | x :: xs => xs.foldl Min.min x

/-- Sum of a list of values. -/
def listSum (l : List Int) : Int :=
  l.foldl (· + ·) 0

/-- Modelled from the spec: aggregating one contiguous run of input items
with a named method (§4.5). -/
def aggregate (method : SamplingMethod) (run : List Int) : Int :=
  match method with
  | SamplingMethod.average => listSum run / run.length
  | SamplingMethod.max => listMax run
  | SamplingMethod.min => listMin run
  | SamplingMethod.sum => listSum run
  | SamplingMethod.none => 0

/-- The contiguous runs of `C` items of a list, in order (the final run may
be shorter). -/
def runsOf (C : Nat) (l : List α) : List (List α) :=
  if _h : C = 0 ∨ l.length = 0 then []
  else l.take C :: runsOf C (l.drop C)
termination_by l.length
decreasing_by simp only [List.length_drop]; omega

/-- Modelled from the spec: the downsampling processor (§4.5, registered as
`dataSample`) — `none` is a no-op pass-through, a dataset at or below the
threshold passes through unchanged, and otherwise each output item
aggregates one contiguous run of `rate` input items with the named method.
The processor's implementation file is not among the provided sources. -/
def downsample (method : SamplingMethod) (rate threshold : Nat)
    (data : List Int) : List Int :=
  if method = SamplingMethod.none ∨ data.length ≤ threshold then data
  else (runsOf rate data).map (aggregate method)

/-- Modelled from the spec: merging a derived chart type's `defaultOption`
fragment over its base type's fragment (§4.4): child keys override
same-named parent keys; unspecified keys are inherited from the parent.
The generic merge implementation is not among the provided sources. -/
def mergeDefaultOption (child parent : List (String × OptVal)) :
    List (String × OptVal) :=
  child ++ parent.filter (fun kv => (child.lookup kv.1).isNone)

/-- Claim C1: for a bar series model with `large` unset, `getProgressive`
returns `false` (encoded `none`) whatever the `progressive` option and the
dataset size; with `large` set it returns the `progressive` option value. -/
theorem c1_getProgressive_gated_by_large (m : BarSeriesModel) :
    (m.large = false → getProgressive m = none) ∧
    (m.large = true → getProgressive m = m.progressive) := by
  constructor <;> intro h <;> simp [getProgressive, h]

/-- Witness for C1 at concrete models: `large = false` with
`progressive = some 400` yields `none`; `large = true` yields `some 400`. -/
theorem c1_getProgressive_gated_by_large_witness :
    getProgressive ⟨false, some 400, 3000, 600⟩ = none ∧
    getProgressive ⟨true, some 400, 3000, 600⟩ = some 400 :=
  ⟨(c1_getProgressive_gated_by_large ⟨false, some 400, 3000, 600⟩).1 rfl,
   (c1_getProgressive_gated_by_large ⟨true, some 400, 3000, 600⟩).2 rfl⟩

/-- Claim C2: for a bar series model with `large` set, the effective
progressive threshold equals `max largeThreshold progressiveThreshold`; at
`largeThreshold = 2000`, `progressiveThreshold = 1500` the effective
threshold is 2000, a dataset of 1800 items does not trigger progressive mode
and a dataset of 2500 items does. -/
theorem c2_effective_threshold_is_max (m : BarSeriesModel)
    (_h : m.large = true) :
    getProgressiveThreshold m = max m.largeThreshold m.progressiveThreshold ∧
    (∀ p : Option Nat,
      getProgressiveThreshold ⟨true, p, 1500, 2000⟩ = 2000 ∧
      shouldUseProgressive ⟨true, p, 1500, 2000⟩ 1800 = false ∧
      shouldUseProgressive ⟨true, p, 1500, 2000⟩ 2500 = true) := by
  refine ⟨?_, fun p => ⟨rfl, ?_, ?_⟩⟩
  · simp only [getProgressiveThreshold]
    split <;> omega
  · simp [shouldUseProgressive, getProgressiveThreshold]
  · simp [shouldUseProgressive, getProgressiveThreshold]

/-- Witness for C2 at a concrete model with `large = true`. -/
theorem c2_effective_threshold_is_max_witness :
    getProgressiveThreshold ⟨true, some 400, 1500, 2000⟩ =
      max 2000 1500 ∧
    (∀ p : Option Nat,
      getProgressiveThreshold ⟨true, p, 1500, 2000⟩ = 2000 ∧
      shouldUseProgressive ⟨true, p, 1500, 2000⟩ 1800 = false ∧
      shouldUseProgressive ⟨true, p, 1500, 2000⟩ 2500 = true) :=
  c2_effective_threshold_is_max ⟨true, some 400, 1500, 2000⟩ rfl

/-- Claim C9: `getProgressiveThreshold` returns
`max largeThreshold progressiveThreshold` unconditionally, without consulting
the `large` flag: flipping `large` never changes the result, the result is
`largeThreshold` exactly when `largeThreshold > progressiveThreshold`, and
`progressiveThreshold` otherwise. -/
theorem c9_threshold_ignores_large_flag (m : BarSeriesModel) :
    getProgressiveThreshold m = max m.largeThreshold m.progressiveThreshold ∧
    getProgressiveThreshold { m with large := true } =
      getProgressiveThreshold { m with large := false } ∧
    (m.largeThreshold > m.progressiveThreshold →
      getProgressiveThreshold m = m.largeThreshold) ∧
    (¬ m.largeThreshold > m.progressiveThreshold →
      getProgressiveThreshold m = m.progressiveThreshold) := by
  refine ⟨?_, rfl, ?_, ?_⟩
  · simp only [getProgressiveThreshold]
    split <;> omega
  · intro h
    simp [getProgressiveThreshold, h]
  · intro h
    simp [getProgressiveThreshold, h]

/-- Witness for C9 at a concrete model (`large = false`,
`largeThreshold = 2000 > progressiveThreshold = 1500`). -/
theorem c9_threshold_ignores_large_flag_witness :
    getProgressiveThreshold ⟨false, none, 1500, 2000⟩ = max 2000 1500 ∧
    getProgressiveThreshold ⟨true, none, 1500, 2000⟩ =
      getProgressiveThreshold ⟨false, none, 1500, 2000⟩ ∧
    getProgressiveThreshold ⟨false, none, 1500, 2000⟩ = 2000 :=
  ⟨(c9_threshold_ignores_large_flag ⟨false, none, 1500, 2000⟩).1,
   (c9_threshold_ignores_large_flag ⟨false, none, 1500, 2000⟩).2.1,
   (c9_threshold_ignores_large_flag ⟨false, none, 1500, 2000⟩).2.2.1
     (by decide)⟩

/-- Claim C10: in the bar series `defaultOption` constant, the keys
`sampling` (default `'none'`) and `samplingRate` (default `1`) occur only
inside the `backgroundStyle` sub-object, not at the top level of the series
option. -/
theorem c10_sampling_only_in_backgroundStyle :
    (barDefaultOption.map Prod.fst).contains "sampling" = false ∧
    (barDefaultOption.map Prod.fst).contains "samplingRate" = false ∧
    barDefaultOption.lookup "backgroundStyle" =
      some (OptVal.obj backgroundStyleFields) ∧
    backgroundStyleFields.lookup "sampling" = some (OptVal.str "none") ∧
    backgroundStyleFields.lookup "samplingRate" = some (OptVal.num 1) :=
  ⟨rfl, rfl, rfl, rfl, rfl⟩

/-- Stability of the ordered insertion step: filtering the result of
`orderedInsert` at one priority value either prepends the inserted entry (if
it has that priority) or leaves the filtered list unchanged. -/
theorem filter_priority_orderedInsert {H : Type} (a : StageEntry H)
    (l : List (StageEntry H)) (p : Nat) :
    (List.orderedInsert stagePriorityLE a l).filter
        (fun e => decide (e.priority = p)) =
      if a.priority = p then
        a :: l.filter (fun e => decide (e.priority = p))
      else l.filter (fun e => decide (e.priority = p)) := by
  induction l with
  | nil => by_cases hp : a.priority = p <;> simp [hp]
  | cons b l ih =>
    by_cases hr : stagePriorityLE a b
    · by_cases hp : a.priority = p <;> simp [List.orderedInsert, hr, hp]
    · have hb : b.priority < a.priority := by
        simp only [stagePriorityLE] at hr
        omega
      by_cases hp : a.priority = p
      · have hbp : ¬ b.priority = p := by omega
        simp [List.orderedInsert, hr, hp, hbp, ih]
      · by_cases hbp : b.priority = p <;>
          simp [List.orderedInsert, hr, hp, hbp, ih]

/-- Stability of the sort used by `getStages`: filtering the sorted list at
any single priority value gives the same sequence as filtering the input,
i.e. equal-priority entries keep their input (registration) order. -/
theorem filter_priority_insertionSort {H : Type}
    (l : List (StageEntry H)) (p : Nat) :
    (List.insertionSort stagePriorityLE l).filter
        (fun e => decide (e.priority = p)) =
      l.filter (fun e => decide (e.priority = p)) := by
  induction l with
  | nil => rfl
  | cons a l ih =>
    simp only [List.insertionSort]
    rw [filter_priority_orderedInsert]
    by_cases hp : a.priority = p <;> simp [hp, ih]

/-- Claim C3: for every stage kind and every sequence of registrations,
`getStages(kind)` returns the kind's handlers sorted ascending by priority
(`Sorted stagePriorityLE`), with equal-priority entries in registration
order (filtering the result at any one priority value reproduces the
registration-order sequence); in particular registering A at priority 10
then B at priority 10 yields the handler sequence [A, B]. -/
theorem c3_getStages_sorted_and_stable :
    (∀ (H : Type) (reg : StageRegistry H) (kind : StageKind),
      (reg.getStagesEntries kind).Sorted stagePriorityLE ∧
      (∀ p : Nat,
        (reg.getStagesEntries kind).filter
            (fun e => decide (e.priority = p)) =
          (reg.entries.filter (fun e => decide (e.kind = kind))).filter
            (fun e => decide (e.priority = p)))) ∧
    (((StageRegistry.register
        (StageRegistry.register (⟨[]⟩ : StageRegistry String)
          StageKind.process 10 "A")
        StageKind.process 10 "B").getStages StageKind.process) = ["A", "B"]) := by
  refine ⟨fun H reg kind => ⟨?_, fun p => ?_⟩, rfl⟩
  · exact List.sorted_insertionSort stagePriorityLE _
  · exact filter_priority_insertionSort _ p

/-- Claim C8: loading the candlestick module appends exactly four entries to
the stage registry — one preprocessor, one visual stage, one layout stage,
and one processor registered in the process kind at exactly the fixed
`PRIORITY.PROCESSOR.STATISTIC` priority; starting from the empty registry,
each kind then holds exactly its one candlestick handler. -/
theorem c8_candlestick_module_registrations
    (reg : StageRegistry CandlestickStage) :
    (candlestickModuleLoad reg).entries = reg.entries ++
      [⟨StageKind.preprocess, 0, CandlestickStage.preprocessorFn⟩,
       ⟨StageKind.visual, 0, CandlestickStage.candlestickVisual⟩,
       ⟨StageKind.layout, 0, CandlestickStage.candlestickLayout⟩,
       ⟨StageKind.process, PRIORITY_PROCESSOR_STATISTIC,
        CandlestickStage.dataSampleCandlestick⟩] ∧
    (candlestickModuleLoad ⟨[]⟩).getStages StageKind.preprocess =
      [CandlestickStage.preprocessorFn] ∧
    (candlestickModuleLoad ⟨[]⟩).getStages StageKind.visual =
      [CandlestickStage.candlestickVisual] ∧
    (candlestickModuleLoad ⟨[]⟩).getStages StageKind.layout =
      [CandlestickStage.candlestickLayout] ∧
    (candlestickModuleLoad ⟨[]⟩).getStages StageKind.process =
      [CandlestickStage.dataSampleCandlestick] := by
  refine ⟨?_, rfl, rfl, rfl, rfl⟩
  simp [candlestickModuleLoad, registerPreprocessor, registerProcessor,
    registerVisual, registerLayout, StageRegistry.register]

/-- The chunk list is empty exactly when the chunk size is zero or the
cursor is already past the dataset. -/
theorem chunksFrom_eq_nil_iff (N C cursor : Nat) :
    chunksFrom N C cursor = [] ↔ (C = 0 ∨ N ≤ cursor) := by
  rw [chunksFrom]
  split <;> simp_all

/-- The number of chunks produced from a cursor is
`(N - cursor + C - 1) / C` (zero when `C = 0`, by `Nat` division). -/
theorem chunksFrom_length (N C cursor : Nat) :
    (chunksFrom N C cursor).length = (N - cursor + C - 1) / C := by
  induction cursor using chunksFrom.induct N C with
  | case1 cursor h =>
    rw [chunksFrom, dif_pos h]
    rcases h with h | h
    · simp [h]
    · have h0 : N - cursor = 0 := by omega
      rcases Nat.eq_zero_or_pos C with hC | hC
      · simp [h0, hC]
      · have hd : (N - cursor + C - 1) / C = 0 := Nat.div_eq_of_lt (by omega)
        simp [hd]
  | case2 cursor h ih =>
    rw [chunksFrom, dif_neg h]
    simp only [List.length_cons, ih]
    have hC : 0 < C := by omega
    have hcur : cursor < N := by omega
    have hr : N - cursor + C - 1 = (N - cursor - 1) + C := by omega
    rw [hr, Nat.add_div_right _ hC]
    by_cases hcase : C ≤ N - cursor
    · have he : N - (cursor + C) + C - 1 = N - cursor - 1 := by omega
      rw [he]
    · have h1 : N - (cursor + C) + C - 1 = C - 1 := by omega
      rw [h1, Nat.div_eq_of_lt (by omega), Nat.div_eq_of_lt (by omega)]

/-- Every produced chunk range is nonempty and spans at most the chunk
size. -/
theorem chunksFrom_mem_size (N C cursor : Nat) :
    ∀ c ∈ chunksFrom N C cursor, c.1 < c.2 ∧ c.2 - c.1 ≤ C := by
  induction cursor using chunksFrom.induct N C with
  | case1 cursor h =>
    rw [chunksFrom, dif_pos h]
    simp
  | case2 cursor h ih =>
    rw [chunksFrom, dif_neg h]
    intro c hc
    rcases List.mem_cons.mp hc with hc | hc
    · subst hc
      constructor <;> simp <;> omega
    · exact ih c hc

/-- The head of a nonempty chunk list starts at the cursor and stops at
`min (cursor + C) N`. -/
theorem chunksFrom_head (N C cursor : Nat) (h : ¬ (C = 0 ∨ N ≤ cursor)) :
    (chunksFrom N C cursor).head? =
      some (cursor, min (cursor + C) N) := by
  rw [chunksFrom, dif_neg h]
  rfl

/-- Every chunk except possibly the last spans exactly the chunk size. -/
theorem chunksFrom_dropLast_size (N C cursor : Nat) :
    ∀ c ∈ (chunksFrom N C cursor).dropLast, c.2 - c.1 = C := by
  induction cursor using chunksFrom.induct N C with
  | case1 cursor h =>
    rw [chunksFrom, dif_pos h]
    simp
  | case2 cursor h ih =>
    rw [chunksFrom, dif_neg h]
    cases hrest : chunksFrom N C (cursor + C) with
    | nil => simp
    | cons y ys =>
      have hlt : cursor + C < N := by
        by_contra hge
        have hnil : chunksFrom N C (cursor + C) = [] :=
          (chunksFrom_eq_nil_iff N C (cursor + C)).mpr (Or.inr (by omega))
        rw [hrest] at hnil
        exact List.cons_ne_nil _ _ hnil
      rw [List.dropLast_cons₂]
      intro c hc
      rcases List.mem_cons.mp hc with hc | hc
      · subst hc
        simp
        omega
      · rw [← hrest] at hc
        exact ih c hc

/-- Consecutive chunks are adjacent: each chunk stops where the next one
starts. -/
theorem chunksFrom_chain (N C cursor : Nat) :
    List.Chain' (fun a b => a.2 = b.1) (chunksFrom N C cursor) := by
  induction cursor using chunksFrom.induct N C with
  | case1 cursor h =>
    rw [chunksFrom, dif_pos h]
    exact List.chain'_nil
  | case2 cursor h ih =>
    rw [chunksFrom, dif_neg h]
    refine List.chain'_cons'.mpr ⟨?_, ih⟩
    intro y hy
    by_cases h2 : C = 0 ∨ N ≤ cursor + C
    · have hnil : chunksFrom N C (cursor + C) = [] :=
        (chunksFrom_eq_nil_iff N C (cursor + C)).mpr h2
      rw [hnil] at hy
      simp at hy
    · rw [chunksFrom_head N C _ h2] at hy
      simp at hy
      subst hy
      simp
      omega

/-- A nonempty chunk list's last chunk stops exactly at the dataset size. -/
theorem chunksFrom_getLast_stop (N C : Nat) : ∀ cursor c,
    (chunksFrom N C cursor).getLast? = some c → c.2 = N := by
  intro cursor
  induction cursor using chunksFrom.induct N C with
  | case1 cursor h =>
    rw [chunksFrom, dif_pos h]
    intro c hc
    simp at hc
  | case2 cursor h ih =>
    intro c hc
    rw [chunksFrom, dif_neg h] at hc
    cases hrest : chunksFrom N C (cursor + C) with
    | nil =>
      rw [hrest] at hc
      simp at hc
      have hend : C = 0 ∨ N ≤ cursor + C :=
        (chunksFrom_eq_nil_iff N C (cursor + C)).mp hrest
      rw [← hc]
      simp
      omega
    | cons y ys =>
      rw [hrest, List.getLast?_cons_cons] at hc
      rw [← hrest] at hc
      exact ih c hc

/-- Starting from a cursor aligned to the chunk size, the last chunk spans
`N % C` items, or `C` items when `C` divides `N`. -/
theorem chunksFrom_getLast_size (N C : Nat) : ∀ cursor c, C ∣ cursor →
    (chunksFrom N C cursor).getLast? = some c →
    c.2 - c.1 = if N % C = 0 then C else N % C := by
  intro cursor
  induction cursor using chunksFrom.induct N C with
  | case1 cursor h =>
    rw [chunksFrom, dif_pos h]
    intro c _ hc
    simp at hc
  | case2 cursor h ih =>
    intro c hdvd hc
    rw [chunksFrom, dif_neg h] at hc
    cases hrest : chunksFrom N C (cursor + C) with
    | nil =>
      rw [hrest] at hc
      simp at hc
      obtain ⟨q, hq⟩ := hdvd
      have hend : C = 0 ∨ N ≤ cursor + C :=
        (chunksFrom_eq_nil_iff N C (cursor + C)).mp hrest
      have hCpos : 0 < C := by omega
      have hcur : cursor < N := by omega
      rcases Nat.lt_or_ge N (cursor + C) with hlt | hge
      · have hN : N = (N - cursor) + C * q := by omega
        have hmod : N % C = N - cursor := by
          conv_lhs => rw [hN]
          rw [Nat.add_mul_mod_self_left]
          exact Nat.mod_eq_of_lt (by omega)
        rw [← hc, hmod]
        simp
        split <;> omega
      · have hNeq : N = cursor + C := by omega
        have hmod : N % C = 0 := by
          have hN : N = C * (q + 1) := by
            rw [Nat.mul_succ, ← hq]
            omega
          rw [hN]
          exact Nat.mul_mod_right C (q + 1)
        rw [← hc, if_pos hmod]
        simp
        omega
    | cons y ys =>
      rw [hrest, List.getLast?_cons_cons] at hc
      rw [← hrest] at hc
      exact ih c (Nat.dvd_add hdvd (Nat.dvd_refl C)) hc

/-- Claim C4: for a dataset of size `N > 0` and chunk size `C > 0`,
iterating `nextChunk` from cursor 0 produces exactly `⌈N / C⌉ =
(N + C - 1) / C` chunks; every chunk but the last spans exactly `C` items
and the last spans `N % C` items (`C` when `C` divides `N`); the ranges
partition `[0, N)` (first starts at 0, consecutive ranges are adjacent, the
last stops at `N`, every range is nonempty); `nextChunk` returns the done
sentinel exactly when `cursor ≥ N`; and the chunk list is exactly the
iteration of `nextChunk` with the cursor advancing by `C`. -/
theorem c4_progressive_chunking (N C : Nat) (hN : 0 < N) (hC : 0 < C) :
    (chunks N C).length = (N + C - 1) / C ∧
    (∀ c ∈ (chunks N C).dropLast, c.2 - c.1 = C) ∧
    (∀ c, (chunks N C).getLast? = some c →
      c.2 - c.1 = if N % C = 0 then C else N % C) ∧
    (chunks N C).head? = some (0, min C N) ∧
    (∀ c, (chunks N C).getLast? = some c → c.2 = N) ∧
    List.Chain' (fun a b => a.2 = b.1) (chunks N C) ∧
    (∀ c ∈ chunks N C, c.1 < c.2 ∧ c.2 - c.1 ≤ C) ∧
    (∀ cursor, nextChunk cursor N C = ChunkResult.done ↔ N ≤ cursor) ∧
    (∀ cursor, chunksFrom N C cursor =
      match nextChunk cursor N C with
      | ChunkResult.done => []
      | ChunkResult.chunk s e => (s, e) :: chunksFrom N C (s + C)) := by
  have h0 : ¬ (C = 0 ∨ N ≤ 0) := by omega
  refine ⟨?_, chunksFrom_dropLast_size N C 0,
    fun c hc => chunksFrom_getLast_size N C 0 c (Nat.dvd_zero C) hc,
    ?_,
    fun c hc => chunksFrom_getLast_stop N C 0 c hc,
    chunksFrom_chain N C 0,
    chunksFrom_mem_size N C 0,
    fun cursor => ?_,
    fun cursor => ?_⟩
  · rw [chunks, chunksFrom_length]
    simp
  · rw [chunks, chunksFrom_head N C 0 h0]
    simp
  · by_cases hcur : N ≤ cursor <;> simp [nextChunk, hcur]
  · by_cases hcur : N ≤ cursor
    · rw [(chunksFrom_eq_nil_iff N C cursor).mpr (Or.inr hcur)]
      simp [nextChunk, hcur]
    · rw [chunksFrom, dif_neg (by omega)]
      simp [nextChunk, hcur]

/-- Witness for C4 at `N = 7`, `C = 3` (the chunks are
`[0,3) [3,6) [6,7)`). -/
theorem c4_progressive_chunking_witness :
    0 < 7 ∧ 0 < 3 ∧
    (chunks 7 3).length = (7 + 3 - 1) / 3 ∧
    (∀ c ∈ (chunks 7 3).dropLast, c.2 - c.1 = 3) :=
  ⟨by decide, by decide,
   (c4_progressive_chunking 7 3 (by decide) (by decide)).1,
   (c4_progressive_chunking 7 3 (by decide) (by decide)).2.1⟩

/-- A pass with no failing series reports no errors. -/
theorem schedulerErrorsFrom_nil_of_ok {D : Type} :
    ∀ (l : List (SeriesPass D)) (n : Nat),
    (∀ s ∈ l, (runSeriesPass s.stages s.data).toOption.isSome = true) →
    schedulerErrorsFrom n l = [] := by
  intro l
  induction l with
  | nil => intro n _; rfl
  | cons s rest ih =>
    intro n hok
    have hs := hok s (List.mem_cons_self s rest)
    rw [schedulerErrorsFrom]
    cases hrun : runSeriesPass s.stages s.data with
    | ok d => exact ih (n + 1) (fun t ht => hok t (List.mem_cons_of_mem s ht))
    | error ke =>
      rw [hrun] at hs
      simp [Except.toOption] at hs

/-- A pass whose only failing series is at position `i` (of the sublist)
reports exactly one error, at absolute index `n + i`, with the throwing
stage's kind and cause. -/
theorem schedulerErrorsFrom_single {D : Type} :
    ∀ (l : List (SeriesPass D)) (n i : Nat) (hi : i < l.length)
      (k : StageKind) (msg : String),
    runSeriesPass (l.get ⟨i, hi⟩).stages (l.get ⟨i, hi⟩).data
      = Except.error (k, msg) →
    (∀ j (hj : j < l.length), j ≠ i →
      (runSeriesPass (l.get ⟨j, hj⟩).stages
        (l.get ⟨j, hj⟩).data).toOption.isSome = true) →
    schedulerErrorsFrom n l = [⟨n + i, k, msg⟩] := by
  intro l
  induction l with
  | nil =>
    intro n i hi
    simp at hi
  | cons s rest ih =>
    intro n i hi k msg hfail hok
    cases i with
    | zero =>
      rw [schedulerErrorsFrom]
      have hfail0 : runSeriesPass s.stages s.data
          = Except.error (k, msg) := hfail
      rw [hfail0]
      have hrest : schedulerErrorsFrom (n + 1) rest = [] := by
        apply schedulerErrorsFrom_nil_of_ok
        intro t ht
        obtain ⟨j, hjt⟩ := List.mem_iff_get.mp ht
        have hlt : (j : Nat) + 1 < (s :: rest).length := by
          have := j.isLt
          simp only [List.length_cons]
          omega
        have h2 := hok ((j : Nat) + 1) hlt (by omega)
        rw [← hjt]
        exact h2
      rw [hrest]
      simp
    | succ i0 =>
      rw [schedulerErrorsFrom]
      have hi0 : i0 < rest.length := by
        simp only [List.length_cons] at hi
        omega
      have hs := hok 0 (by simp) (by omega)
      cases hrun : runSeriesPass s.stages s.data with
      | error ke =>
        have hs0 : (runSeriesPass s.stages s.data).toOption.isSome
            = true := hs
        rw [hrun] at hs0
        simp [Except.toOption] at hs0
      | ok d =>
        have hone := ih (n + 1) i0 hi0 k msg hfail
          (fun j hj hne =>
            hok (j + 1)
              (by simp only [List.length_cons]; omega)
              (by omega))
        rw [hone]
        simp
        omega

/-- Claim C5: in a render pass where exactly the series at index `i` throws
(stage kind `k`, cause `msg`) and every other series' pipeline succeeds, an
output slot exists for every series, every series other than `i` produces
its output, series `i` produces none, and the reported errors are exactly
one `StageExecutionError` carrying index `i` and kind `k` — the exception
never aborts the other series. -/
theorem c5_stage_failure_isolated {D : Type} (series : List (SeriesPass D))
    (i : Nat) (hi : i < series.length) (k : StageKind) (msg : String)
    (hfail : runSeriesPass (series.get ⟨i, hi⟩).stages
      (series.get ⟨i, hi⟩).data = Except.error (k, msg))
    (hok : ∀ j (hj : j < series.length), j ≠ i →
      (runSeriesPass (series.get ⟨j, hj⟩).stages
        (series.get ⟨j, hj⟩).data).toOption.isSome = true) :
    (schedulerOutputs series).length = series.length ∧
    (∀ j (hj : j < series.length), j ≠ i →
      ((schedulerOutputs series).get
        ⟨j, by simpa [schedulerOutputs] using hj⟩).isSome = true) ∧
    ((schedulerOutputs series).get
      ⟨i, by simpa [schedulerOutputs] using hi⟩) = none ∧
    schedulerErrors series = [⟨i, k, msg⟩] := by
  refine ⟨by simp [schedulerOutputs], ?_, ?_, ?_⟩
  · intro j hj hne
    have hg : ((schedulerOutputs series).get
          ⟨j, by simpa [schedulerOutputs] using hj⟩)
        = (runSeriesPass (series.get ⟨j, hj⟩).stages
            (series.get ⟨j, hj⟩).data).toOption := by
      simp [schedulerOutputs, List.get_eq_getElem]
    rw [hg]
    exact hok j hj hne
  · have hg : ((schedulerOutputs series).get
          ⟨i, by simpa [schedulerOutputs] using hi⟩)
        = (runSeriesPass (series.get ⟨i, hi⟩).stages
            (series.get ⟨i, hi⟩).data).toOption := by
      simp [schedulerOutputs, List.get_eq_getElem]
    rw [hg, hfail]
    rfl
  · rw [schedulerErrors, schedulerErrorsFrom_single series 0 i hi k msg
      hfail hok]
    simp

/-- Witness for C5 at the concrete five-series pass: series 2 throws in its
layout stage, series 0, 1, 3, 4 produce output, series 2 produces none, and
exactly one error referencing index 2 and the layout kind is reported. -/
theorem c5_stage_failure_isolated_witness :
    (schedulerOutputs fivePassSeries).length = 5 ∧
    ((schedulerOutputs fivePassSeries).get ⟨2, by decide⟩) = none ∧
    schedulerErrors fivePassSeries = [⟨2, StageKind.layout, "boom"⟩] := by
  have h := c5_stage_failure_isolated fivePassSeries 2 (by decide)
    StageKind.layout "boom" rfl
    (by
      intro j hj hne
      match j with
      | 0 => rfl
      | 1 => rfl
      | 2 => exact absurd rfl hne
      | 3 => rfl
      | 4 => rfl
      | j + 5 =>
        simp [fivePassSeries] at hj)
  exact ⟨h.1, h.2.2.1, h.2.2.2⟩

/-- A list of length `C * k` splits into exactly `k` runs of `C` items. -/
theorem runsOf_length {α : Type} (C : Nat) (hC : 0 < C) :
    ∀ (k : Nat) (l : List α), l.length = C * k → (runsOf C l).length = k := by
  intro k
  induction k with
  | zero =>
    intro l hl
    rw [runsOf, dif_pos (Or.inr (by omega))]
    rfl
  | succ k0 ih =>
    intro l hl
    have hpos : l.length ≠ 0 := by
      rw [hl]
      simp only [ne_eq, Nat.mul_eq_zero]
      omega
    rw [runsOf, dif_neg (by omega)]
    simp only [List.length_cons]
    rw [ih (l.drop C) (by simp [hl, Nat.mul_succ])]

/-- The `i`-th run is the `i`-th block of `C` consecutive input items. -/
theorem runsOf_get? {α : Type} (C : Nat) :
    ∀ (i : Nat) (l : List α), i < (runsOf C l).length →
    (runsOf C l).get? i = some ((l.drop (C * i)).take C) := by
  intro i
  induction i with
  | zero =>
    intro l hi
    have hne : ¬ (C = 0 ∨ l.length = 0) := by
      by_contra hcond
      rw [runsOf, dif_pos hcond] at hi
      simp at hi
    rw [runsOf, dif_neg hne]
    simp
  | succ i0 ih =>
    intro l hi
    have hne : ¬ (C = 0 ∨ l.length = 0) := by
      by_contra hcond
      rw [runsOf, dif_pos hcond] at hi
      simp at hi
    rw [runsOf, dif_neg hne] at hi ⊢
    simp only [List.length_cons] at hi
    rw [List.get?_cons_succ, ih (l.drop C) (by omega)]
    rw [List.drop_drop]
    have harith : C + C * i0 = C * (i0 + 1) := by ring
    rw [harith]

/-- A head-seeded maximum fold returns the seed or a list element. -/
theorem foldl_max_mem : ∀ (xs : List Int) (x : Int),
    xs.foldl Max.max x = x ∨ xs.foldl Max.max x ∈ xs := by
  intro xs
  induction xs with
  | nil => intro x; exact Or.inl rfl
  | cons y ys ih =>
    intro x
    rcases ih (Max.max x y) with h | h
    · rcases max_choice x y with hm | hm
      · exact Or.inl (by rw [List.foldl_cons, h, hm])
      · exact Or.inr (by rw [List.foldl_cons, h, hm]; exact List.mem_cons_self y ys)
    · exact Or.inr (List.mem_cons_of_mem y h)

/-- The seed is below a head-seeded maximum fold. -/
theorem le_foldl_max : ∀ (xs : List Int) (x : Int),
    x ≤ xs.foldl Max.max x := by
  intro xs
  induction xs with
  | nil => intro x; exact le_refl x
  | cons y ys ih =>
    intro x
    exact le_trans (le_max_left x y) (ih (Max.max x y))

/-- Every list element is below a head-seeded maximum fold. -/
theorem mem_le_foldl_max : ∀ (xs : List Int) (x y : Int), y ∈ xs →
    y ≤ xs.foldl Max.max x := by
  intro xs
  induction xs with
  | nil => intro x y hy; simp at hy
  | cons z zs ih =>
    intro x y hy
    rcases List.mem_cons.mp hy with hy | hy
    · subst hy
      exact le_trans (le_max_right x y) (le_foldl_max zs (Max.max x y))
    · exact ih (Max.max x z) y hy

/-- `listMax` of a nonempty list is an element of the list. -/
theorem listMax_mem (l : List Int) (h : l ≠ []) : listMax l ∈ l := by
  cases l with
  | nil => exact absurd rfl h
  | cons x xs =>
    rcases foldl_max_mem xs x with hm | hm
    · rw [listMax, hm]
      exact List.mem_cons_self x xs
    · exact List.mem_cons_of_mem x hm

/-- `listMax` bounds every element of the list. -/
theorem listMax_ge (l : List Int) (y : Int) (hy : y ∈ l) : y ≤ listMax l := by
  cases l with
  | nil => simp at hy
  | cons x xs =>
    rcases List.mem_cons.mp hy with h | h
    · subst h
      exact le_foldl_max xs y
    · exact mem_le_foldl_max xs x y h

/-- Claim C6: the downsampling processor with method `none` returns the
dataset unchanged; with any method it returns a dataset at or below the
threshold unchanged (item count and ordering); with method `max` over runs
of 3 on a dataset of `3 * k` items above the threshold it produces exactly
`k` items, and each output item is the maximum of its contiguous input run
of 3 (it is an element of the run and bounds every element of the run). -/
theorem c6_downsample_methods (data : List Int) (rate threshold : Nat)
    (method : SamplingMethod) :
    downsample SamplingMethod.none rate threshold data = data ∧
    (data.length ≤ threshold →
      downsample method rate threshold data = data) ∧
    (∀ k : Nat, data.length = 3 * k → threshold < data.length →
      (downsample SamplingMethod.max 3 threshold data).length = k ∧
      (∀ i v,
        (downsample SamplingMethod.max 3 threshold data).get? i = some v →
        v = listMax ((data.drop (3 * i)).take 3) ∧
        v ∈ (data.drop (3 * i)).take 3 ∧
        ∀ x ∈ (data.drop (3 * i)).take 3, x ≤ v)) := by
  refine ⟨by simp [downsample], fun hle => by simp [downsample, hle], ?_⟩
  intro k hk ht
  have hcond : ¬ (SamplingMethod.max = SamplingMethod.none ∨
      data.length ≤ threshold) := by
    rintro (h | h)
    · cases h
    · omega
  have hd : downsample SamplingMethod.max 3 threshold data
      = (runsOf 3 data).map (aggregate SamplingMethod.max) := by
    rw [downsample, if_neg hcond]
  have hlen : (runsOf 3 data).length = k :=
    runsOf_length 3 (by omega) k data hk
  refine ⟨by rw [hd, List.length_map, hlen], ?_⟩
  intro i v hv
  rw [hd, List.get?_map] at hv
  obtain ⟨run, hrun, hagg⟩ := Option.map_eq_some'.mp hv
  obtain ⟨hi, -⟩ := List.get?_eq_some.mp hrun
  rw [runsOf_get? 3 i data hi] at hrun
  have hblock : run = (data.drop (3 * i)).take 3 :=
    (Option.some.inj hrun).symm
  have hne : (data.drop (3 * i)).take 3 ≠ [] := by
    have hik : i < k := by rw [← hlen]; exact hi
    have : ((data.drop (3 * i)).take 3).length = 3 := by
      simp [List.length_take, List.length_drop, hk]
      omega
    intro hnil
    rw [hnil] at this
    simp at this
  have hvmax : v = listMax ((data.drop (3 * i)).take 3) := by
    rw [← hagg, hblock]
    rfl
  exact ⟨hvmax,
    hvmax ▸ listMax_mem _ hne,
    fun x hx => hvmax ▸ listMax_ge _ x hx⟩

/-- Witness for C6: method `none` passes `[5, 1, 4, 2, 9, 3]` through; a
short dataset below the threshold passes through under `sum`; with `max`
and runs of 3 the six items above threshold 4 reduce to 2 items. -/
theorem c6_downsample_methods_witness :
    downsample SamplingMethod.none 3 4 [5, 1, 4, 2, 9, 3]
      = [5, 1, 4, 2, 9, 3] ∧
    downsample SamplingMethod.sum 3 10 [5, 1, 4, 2, 9, 3]
      = [5, 1, 4, 2, 9, 3] ∧
    (downsample SamplingMethod.max 3 4 [5, 1, 4, 2, 9, 3]).length = 2 :=
  ⟨(c6_downsample_methods [5, 1, 4, 2, 9, 3] 3 4 SamplingMethod.max).1,
   (c6_downsample_methods [5, 1, 4, 2, 9, 3] 3 10 SamplingMethod.sum).2.1
     (by decide),
   ((c6_downsample_methods [5, 1, 4, 2, 9, 3] 3 4 SamplingMethod.max).2.2
     2 (by decide) (by decide)).1⟩

/-- Association lookup distributes over list append. -/
theorem lookup_append (l1 l2 : List (String × OptVal)) (k : String) :
    (l1 ++ l2).lookup k = (l1.lookup k).or (l2.lookup k) := by
  induction l1 with
  | nil => simp
  | cons a rest ih =>
    obtain ⟨key, val⟩ := a
    by_cases hbeq : k == key
    · simp [List.lookup, hbeq]
    · simp only [Bool.not_eq_true] at hbeq
      simp [List.lookup, hbeq, ih]

/-- Keys absent from the child survive the merge's filter: looking up such a
key among the kept parent entries equals looking it up in the parent. -/
theorem lookup_filter_of_child_none (child : List (String × OptVal))
    (k : String) (hk : child.lookup k = Option.none) :
    ∀ parent : List (String × OptVal),
    (parent.filter (fun kv => (child.lookup kv.1).isNone)).lookup k
      = parent.lookup k := by
  intro parent
  induction parent with
  | nil => rfl
  | cons a rest ih =>
    obtain ⟨key, val⟩ := a
    by_cases hbeq : k == key
    · have hkeq : k = key := by simpa using hbeq
      subst hkeq
      have hp : (child.lookup k).isNone = true := by simp [hk]
      simp [List.filter_cons, hp, List.lookup]
    · simp only [Bool.not_eq_true] at hbeq
      by_cases hp : (child.lookup key).isNone = true
      · simp [List.filter_cons, hp, List.lookup, hbeq, ih]
      · simp only [Bool.not_eq_true] at hp
        simp [List.filter_cons, hp, List.lookup, hbeq, ih]

/-- Claim C7: merging a derived type's `defaultOption` fragment over its
base type's fragment lets child keys override same-named parent keys while
unspecified keys are inherited; in particular a child declaring only
`clip: false` over a parent declaring `showBackground: true` yields a
merged option holding both. -/
theorem c7_defaultOption_inheritance :
    (∀ (child parent : List (String × OptVal)) (key : String) (v : OptVal),
      child.lookup key = some v →
      (mergeDefaultOption child parent).lookup key = some v) ∧
    (∀ (child parent : List (String × OptVal)) (key : String),
      child.lookup key = Option.none →
      (mergeDefaultOption child parent).lookup key = parent.lookup key) ∧
    ((mergeDefaultOption [("clip", OptVal.bool false)]
        [("showBackground", OptVal.bool true)]).lookup "clip"
      = some (OptVal.bool false) ∧
     (mergeDefaultOption [("clip", OptVal.bool false)]
        [("showBackground", OptVal.bool true)]).lookup "showBackground"
      = some (OptVal.bool true)) := by
  refine ⟨?_, ?_, rfl, rfl⟩
  · intro child parent key v hv
    rw [mergeDefaultOption, lookup_append, hv]
    rfl
  · intro child parent key hnone
    rw [mergeDefaultOption, lookup_append, hnone,
      lookup_filter_of_child_none child key hnone parent]
    rfl

/-- Witness for C7 at the concrete child/parent fragments of the claim:
the child's `clip: false` overrides, the parent's `showBackground: true` is
inherited. -/
theorem c7_defaultOption_inheritance_witness :
    (mergeDefaultOption [("clip", OptVal.bool false)]
        [("showBackground", OptVal.bool true)]).lookup "clip"
      = some (OptVal.bool false) ∧
    (mergeDefaultOption [("clip", OptVal.bool false)]
        [("showBackground", OptVal.bool true)]).lookup "showBackground"
      = some (OptVal.bool true) :=
  ⟨c7_defaultOption_inheritance.1 [("clip", OptVal.bool false)]
      [("showBackground", OptVal.bool true)] "clip" (OptVal.bool false) rfl,
   c7_defaultOption_inheritance.2.1 [("clip", OptVal.bool false)]
      [("showBackground", OptVal.bool true)] "showBackground" rfl⟩

